import Mathlib

/-!
# Verification of the bounded-memory line splitter (`RcLineIterator`)

Shallow embedding of `src/bound.rs` (`RcLineIterator::next`) together with
the chunking behaviour of the underlying `linereader::LineReader` window
(described in the design document as the external chunked-reader
capability), over byte lists (`List Nat`, each element `< 256` in intended
use).

The embedding follows the source line by line:

* `splitChunk` / `nextLine` — the underlying reader: it hands back the
  shortest prefix of the remaining input that ends with `\n` (byte 10),
  cut off at `capacity` bytes when no terminator occurs in the window;
  at end of input it yields `none`.
* `stripEOL` — the terminator trimming of `bound.rs` lines 33–39: drop a
  trailing `\n`, and then a trailing `\r` (byte 13) only if a `\n` was
  dropped.
* `isValidUtf8` — `std::str::from_utf8` validity (RFC 3629).
* `rcProcess` — the body of the closure passed to `map` in
  `RcLineIterator::next` (lines 32–58): Io errors propagate untouched,
  then trimming, buffer rewrite, UTF-8 validation, and the
  full-window / pending-continuation decision.
* `rcNext`, `runRc`, `runAll` — the iterator and its observable run.
* `rcHeapNext` — the same step instrumented with an explicit allocation
  heap, modelling the `Rc::get_mut` reuse-or-reallocate choice of
  lines 40–46.
-/

namespace SimpleLines

/-- One result of `RcLineIterator::next` (the `Option` layer is kept
outside): `ok` is the `Ok(Rc<String>)` case, `incomplete` is
`Err(Incomplete)`, `encoding` is `Err(Encoding)`, `ioError` is `Err(Io)`.
Contents are byte lists (the UTF-8 bytes of the yielded string). -/
inductive LineResult where
  | ok (s : List Nat)
  | incomplete (s : List Nat)
  | encoding
  | ioError
  deriving DecidableEq, Repr

/-- The window scan of the underlying chunked reader: take bytes until a
`\n` (inclusive) or until `cap` bytes have been taken, returning the chunk
and the rest of the stream. -/
def splitChunk : Nat → List Nat → List Nat × List Nat
  | 0, bs => ([], bs)
  | _ + 1, [] => ([], [])
  | n + 1, b :: bs =>
    if b = 10 then ([10], bs)
    else (b :: (splitChunk n bs).1, (splitChunk n bs).2)

/-- `LineReader::next_line` on a pure in-memory stream: `none` at end of
input, otherwise the next chunk (delimited or window-filling) and the
remaining bytes. -/
def nextLine (cap : Nat) (input : List Nat) : Option (List Nat × List Nat) :=
  match input with
  | [] => none
  | b :: bs => some (splitChunk cap (b :: bs))

/-- Terminator stripping of `bound.rs` lines 33–39: if the chunk ends with
`\n` drop it, and then drop a trailing `\r` as well; a chunk not ending in
`\n` is left untouched (in particular a trailing lone `\r` is kept). -/
def stripEOL (c : List Nat) : List Nat :=
  if c.getLast? = some 10 then
    if c.dropLast.getLast? = some 13 then c.dropLast.dropLast else c.dropLast
  else c

/-- One UTF-8 scalar consumed from the front of a byte sequence, per the
validity rules of `std::str::from_utf8` (RFC 3629: no surrogates, no
overlong forms, max U+10FFFF): the bytes after the scalar, or `none` when
the front is not a well-formed scalar. -/
def utf8Step : List Nat → Option (List Nat)
  | [] => none
  | b :: bs =>
    if b < 0x80 then some bs
    else if b < 0xC2 then none
    else if b < 0xE0 then
      match bs with
      | b1 :: bs1 => if 0x80 ≤ b1 ∧ b1 < 0xC0 then some bs1 else none
      | [] => none
    else if b < 0xF0 then
      match bs with
      | b1 :: b2 :: bs2 =>
        if (if b = 0xE0 then 0xA0 ≤ b1 ∧ b1 < 0xC0
            else if b = 0xED then 0x80 ≤ b1 ∧ b1 < 0xA0
            else 0x80 ≤ b1 ∧ b1 < 0xC0) ∧ 0x80 ≤ b2 ∧ b2 < 0xC0
        then some bs2 else none
      | _ => none
    else if b < 0xF5 then
      match bs with
      | b1 :: b2 :: b3 :: bs3 =>
        if (if b = 0xF0 then 0x90 ≤ b1 ∧ b1 < 0xC0
            else if b = 0xF4 then 0x80 ≤ b1 ∧ b1 < 0x90
            else 0x80 ≤ b1 ∧ b1 < 0xC0) ∧ (0x80 ≤ b2 ∧ b2 < 0xC0) ∧
            (0x80 ≤ b3 ∧ b3 < 0xC0)
        then some bs3 else none
      | _ => none
    else none

/-- Fuelled driver for UTF-8 validation (each scalar consumes at least
one byte, so fuel equal to the byte count always suffices). -/
def isValidUtf8F : Nat → List Nat → Bool
  | _, [] => true
  | 0, _ :: _ => false
  | f + 1, b :: bs =>
    match utf8Step (b :: bs) with
    | none => false
    | some rest => isValidUtf8F f rest

/-- UTF-8 validity of a byte sequence, as checked by
`std::str::from_utf8`. -/
def isValidUtf8 (bs : List Nat) : Bool := isValidUtf8F bs.length bs

/-- Response of the underlying reader for one `next_line` call that did
produce an item: either an I/O failure or a chunk of bytes. -/
inductive ReadResult where
  | ioErr
  | bytes (c : List Nat)

/-- Body of the closure passed to `map` in `RcLineIterator::next`
(`bound.rs` lines 31–58), given the reader's response, the capacity
(`max_size`), the `pending_incomplete` flag and the current content of the
shared buffer.  Returns the yielded item together with the new flag and
the new buffer content.  On `Io` the `?` on line 32 propagates before any
state is touched; otherwise the buffer is cleared (or replaced by a fresh
empty string, lines 40–46), the stripped bytes are validated (line 47) and
pushed (line 48), and the full-window / pending decision of lines 50–58 is
taken on the byte length of the rebuilt buffer. -/
def rcProcess (maxSize : Nat) (pending : Bool) (buffer : List Nat) :
    ReadResult → LineResult × Bool × List Nat
  | .ioErr => (.ioError, pending, buffer)
  | .bytes c =>
    let line := stripEOL c
    if isValidUtf8 line then
      if line.length = maxSize then (.incomplete line, true, line)
      else if pending then (.incomplete line, false, line)
      else (.ok line, pending, line)
    else (.encoding, pending, [])

/-- State of an `RcLineIterator` over a pure in-memory stream: the bytes
the reader has not yet delivered, `max_size`, `pending_incomplete`, and
the content of the shared `Rc<String>` buffer. -/
structure RcIter where
  remaining : List Nat
  maxSize : Nat
  pending : Bool
  buffer : List Nat
  deriving DecidableEq, Repr

/-- `RcLineIterator::next`: pull a chunk from the reader; at end of input
yield `none`, otherwise process the chunk with `rcProcess`. -/
def rcNext (st : RcIter) : Option (LineResult × RcIter) :=
  match nextLine st.maxSize st.remaining with
  | none => none
  | some cr =>
    match rcProcess st.maxSize st.pending st.buffer (.bytes cr.1) with
    | (r, p, buf) => some (r, ⟨cr.2, st.maxSize, p, buf⟩)

/-- The freshly constructed iterator (`RcLineIterator::new` via
`lines_rc_with_capacity`): empty buffer, flag cleared. -/
def initIter (cap : Nat) (input : List Nat) : RcIter :=
  ⟨input, cap, false, []⟩

/-- Fuelled run of the iterator, collecting every yielded item until the
first `none`. -/
def runRc : Nat → RcIter → List LineResult
  | 0, _ => []
  | fuel + 1, st =>
    match rcNext st with
    | none => []
    | some rs => rs.1 :: runRc fuel rs.2

/-- The complete observable run of `input.lines_rc_with_capacity cap`:
`input.length + 1` fuel always suffices because every chunk consumes at
least one byte (for positive capacity). -/
def runAll (cap : Nat) (input : List Nat) : List LineResult :=
  runRc (input.length + 1) (initIter cap input)

/-- The state after one call to `next` (unchanged when `next` yields
`none`). -/
def stepState (st : RcIter) : RcIter :=
  match rcNext st with
  | none => st
  | some rs => rs.2

/-- The state after `n` calls to `next`. -/
def stateAfter : Nat → RcIter → RcIter
  | 0, st => st
  | n + 1, st => stateAfter n (stepState st)

/-- Does a result carry a complete (`Ok`) line? -/
def isOk : LineResult → Bool
  | .ok _ => true
  | _ => false

/-- The content carried by a yielded item (`Ok` lines and `Incomplete`
fragments carry their text; failures carry none). -/
def contentOf : LineResult → Option (List Nat)
  | .ok s => some s
  | .incomplete s => some s
  | .encoding => none
  | .ioError => none

/-- Concatenation, in emission order, of the contents of all yielded
fragments and lines. -/
def contentsConcat (rs : List LineResult) : List Nat :=
  (rs.filterMap contentOf).flatten

/-- The sequence of complete-line (`Ok`) contents of a run. -/
def okContents (rs : List LineResult) : List (List Nat) :=
  rs.filterMap fun r =>
    match r with
    | .ok s => some s
    | _ => none

/-- Does a result carry an `Incomplete` fragment? -/
def isIncomplete : LineResult → Bool
  | .incomplete _ => true
  | _ => false

/-- Split a byte stream at its first `\n`: the segment before it and, when
a `\n` exists, the bytes after it.  This is the standard `\n`-aware
splitting step (what `BufRead::lines` does per line). -/
def breakNL : List Nat → List Nat × Option (List Nat)
  | [] => ([], none)
  | b :: bs =>
    if b = 10 then ([], some bs)
    else (b :: (breakNL bs).1, (breakNL bs).2)

/-- Drop one trailing `\r` from a segment, as a `\n`/`\r\n`-aware splitter
does to each `\n`-terminated segment. -/
def dropCR (seg : List Nat) : List Nat :=
  if seg.getLast? = some 13 then seg.dropLast else seg

/-- Fuelled standard line splitter: every `\n`-terminated segment with its
trailing `\r` removed, plus a final unterminated nonempty segment kept
verbatim (the behaviour of `BufRead::lines` on valid text). -/
def splitLinesF : Nat → List Nat → List (List Nat)
  | _, [] => []
  | 0, _ => []
  | fuel + 1, b :: bs =>
    match breakNL (b :: bs) with
    | (seg, none) => [seg]
    | (seg, some rest) => dropCR seg :: splitLinesF fuel rest

/-- The standard `\n`/`\r\n`-aware line split of a byte stream. -/
def splitLines (bs : List Nat) : List (List Nat) :=
  splitLinesF (bs.length + 1) bs

/-- Fuelled check that every logical line of the stream fits in one
reader window: each `\n`-terminated segment together with its `\n` is at
most `cap` bytes, and a final unterminated segment is strictly shorter
than `cap`. -/
def linesFitF : Nat → Nat → List Nat → Bool
  | _, _, [] => true
  | 0, _, _ => false
  | fuel + 1, cap, b :: bs =>
    match breakNL (b :: bs) with
    | (seg, none) => decide (seg.length < cap)
    | (seg, some rest) => decide (seg.length + 1 ≤ cap) && linesFitF fuel cap rest

/-- Every logical line of the stream fits in one reader window. -/
def linesFit (cap : Nat) (bs : List Nat) : Bool :=
  linesFitF (bs.length + 1) cap bs

/-! ## Heap-instrumented model of the `Rc` buffer reuse (lines 40–46)

`Rc::get_mut` succeeds exactly when no other handle to the same storage is
live.  We make the storage explicit: a heap of allocations (`List (List
Nat)`, indices are allocation identities), the iterator's own handle
`bufId`, and the set `live` of allocation indices for which the caller
still holds a handle from an earlier call. -/

/-- The allocation the splitter writes into: the existing buffer storage
when no external handle to it is live (`Rc::get_mut` succeeds, line 40),
otherwise a fresh allocation (`Rc::new`, line 44). -/
def heapTarget (live : List Nat) (heap : List (List Nat)) (bufId : Nat) : Nat :=
  if bufId ∈ live then heap.length else bufId

/-- The heap after the clear-or-allocate step of lines 40–46: the buffer
storage cleared in place when reusable, otherwise the old heap extended
with a fresh empty allocation. -/
def heapCleared (live : List Nat) (heap : List (List Nat)) (bufId : Nat) :
    List (List Nat) :=
  if bufId ∈ live then heap ++ [[]] else heap.set bufId []

/-- Iterator state with explicit allocation heap. -/
structure HeapState where
  remaining : List Nat
  maxSize : Nat
  pending : Bool
  heap : List (List Nat)
  bufId : Nat
  deriving DecidableEq, Repr

/-- `RcLineIterator::next` with the `Rc` storage made explicit: `live`
lists the allocations for which the caller still holds handles from
earlier calls.  The splitter picks its write target with
`heapTarget`/`heapCleared` (the `Rc::get_mut` branch of lines 40–46),
then proceeds exactly as `rcProcess`. -/
def rcHeapNext (live : List Nat) (st : HeapState) :
    Option (LineResult × HeapState) :=
  match nextLine st.maxSize st.remaining with
  | none => none
  | some cr =>
    some ((rcProcess st.maxSize st.pending [] (.bytes cr.1)).1,
      ⟨cr.2, st.maxSize, (rcProcess st.maxSize st.pending [] (.bytes cr.1)).2.1,
        if isValidUtf8 (stripEOL cr.1) then
          (heapCleared live st.heap st.bufId).set
            (heapTarget live st.heap st.bufId) (stripEOL cr.1)
        else heapCleared live st.heap st.bufId,
        heapTarget live st.heap st.bufId⟩)

/-! ## Unfolding and branch lemmas -/

theorem nextLine_nil (cap : Nat) : nextLine cap [] = none := rfl

theorem nextLine_cons (cap : Nat) (b : Nat) (bs : List Nat) :
    nextLine cap (b :: bs) = some (splitChunk cap (b :: bs)) := rfl

theorem rcNext_some {st : RcIter} {c rest : List Nat}
    (h : nextLine st.maxSize st.remaining = some (c, rest)) :
    rcNext st =
      some ((rcProcess st.maxSize st.pending st.buffer (.bytes c)).1,
        ⟨rest, st.maxSize, (rcProcess st.maxSize st.pending st.buffer (.bytes c)).2.1,
          (rcProcess st.maxSize st.pending st.buffer (.bytes c)).2.2⟩) := by
  unfold rcNext
  rw [h]

theorem rcNext_none {st : RcIter} (h : st.remaining = []) : rcNext st = none := by
  unfold rcNext
  rw [h, nextLine_nil]

theorem rcProcess_ioErr (ms : Nat) (p : Bool) (buf : List Nat) :
    rcProcess ms p buf .ioErr = (.ioError, p, buf) := rfl

theorem rcProcess_invalid {ms : Nat} {p : Bool} {buf c : List Nat}
    (hv : isValidUtf8 (stripEOL c) = false) :
    rcProcess ms p buf (.bytes c) = (.encoding, p, []) := by
  simp [rcProcess, hv]

theorem rcProcess_valid_fill {ms : Nat} {p : Bool} {buf c : List Nat}
    (hv : isValidUtf8 (stripEOL c) = true) (hl : (stripEOL c).length = ms) :
    rcProcess ms p buf (.bytes c) = (.incomplete (stripEOL c), true, stripEOL c) := by
  simp [rcProcess, hv, hl]

theorem rcProcess_valid_cont {ms : Nat} {buf c : List Nat}
    (hv : isValidUtf8 (stripEOL c) = true) (hl : (stripEOL c).length ≠ ms) :
    rcProcess ms true buf (.bytes c) = (.incomplete (stripEOL c), false, stripEOL c) := by
  simp [rcProcess, hv, hl]

theorem rcProcess_valid_ok {ms : Nat} {buf c : List Nat}
    (hv : isValidUtf8 (stripEOL c) = true) (hl : (stripEOL c).length ≠ ms) :
    rcProcess ms false buf (.bytes c) = (.ok (stripEOL c), false, stripEOL c) := by
  simp [rcProcess, hv, hl]

theorem rcProcess_ok_iff {ms : Nat} {p : Bool} {buf c : List Nat} :
    isOk (rcProcess ms p buf (.bytes c)).1 = true ↔
      isValidUtf8 (stripEOL c) = true ∧ (stripEOL c).length ≠ ms ∧ p = false := by
  by_cases hv : isValidUtf8 (stripEOL c) = true
  · by_cases hl : (stripEOL c).length = ms
    · simp [rcProcess_valid_fill hv hl, isOk, hl]
    · cases p
      · simp [rcProcess_valid_ok hv hl, isOk, hv, hl]
      · simp [rcProcess_valid_cont hv hl, isOk, hv, hl]
  · rw [rcProcess_invalid (by simpa using hv)]
    simp [isOk, hv]

theorem rcProcess_fill_iff {ms : Nat} {p : Bool} {buf c : List Nat} :
    (isIncomplete (rcProcess ms p buf (.bytes c)).1 = true ∧
        (rcProcess ms p buf (.bytes c)).2.1 = true) ↔
      isValidUtf8 (stripEOL c) = true ∧ (stripEOL c).length = ms := by
  by_cases hv : isValidUtf8 (stripEOL c) = true
  · by_cases hl : (stripEOL c).length = ms
    · simp [rcProcess_valid_fill hv hl, isIncomplete, hv, hl]
    · cases p
      · simp [rcProcess_valid_ok hv hl, isIncomplete, hl]
      · simp [rcProcess_valid_cont hv hl, isIncomplete, hl]
  · rw [rcProcess_invalid (by simpa using hv)]
    simp [isIncomplete, hv]

theorem heapCleared_frame (live : List Nat) (heap : List (List Nat)) (bufId : Nat)
    (i : Nat) (hi : i ∈ live) (hlt : ∀ j ∈ live, j < heap.length) :
    (heapCleared live heap bufId)[i]? = heap[i]? := by
  unfold heapCleared
  by_cases hb : bufId ∈ live
  · rw [if_pos hb]
    exact List.getElem?_append_left (hlt i hi)
  · rw [if_neg hb]
    exact List.getElem?_set_ne (fun he => hb (by rw [he]; exact hi))

theorem heapWrite_frame (live : List Nat) (heap : List (List Nat)) (bufId : Nat)
    (line : List Nat) (i : Nat) (hi : i ∈ live) (hlt : ∀ j ∈ live, j < heap.length) :
    ((heapCleared live heap bufId).set (heapTarget live heap bufId) line)[i]? =
      heap[i]? := by
  have hne : heapTarget live heap bufId ≠ i := by
    unfold heapTarget
    by_cases hb : bufId ∈ live
    · rw [if_pos hb]
      intro he
      exact absurd (hlt i hi) (by rw [← he]; exact Nat.lt_irrefl _)
    · rw [if_neg hb]
      intro he
      exact hb (by rw [he]; exact hi)
  rw [List.getElem?_set_ne hne]
  exact heapCleared_frame live heap bufId i hi hlt

/-! ## Chunking and stripping lemmas -/

theorem getLast?_not_mem {l : List Nat} {a : Nat} (h : a ∉ l) :
    l.getLast? ≠ some a := by
  induction l with
  | nil => simp
  | cons b t ih =>
    cases t with
    | nil =>
      intro he
      have hb : b = a := by simpa using he
      exact h (by rw [← hb]; exact List.mem_singleton_self b)
    | cons c t' =>
      rw [List.getLast?_cons_cons]
      exact ih (fun hm => h (List.mem_cons_of_mem b hm))

theorem splitChunk_cons (n b : Nat) (bs : List Nat) :
    splitChunk (n + 1) (b :: bs) =
      if b = 10 then ([10], bs)
      else (b :: (splitChunk n bs).1, (splitChunk n bs).2) := rfl

theorem breakNL_cons (b : Nat) (bs : List Nat) :
    breakNL (b :: bs) =
      if b = 10 then ([], some bs)
      else (b :: (breakNL bs).1, (breakNL bs).2) := rfl

theorem getLast?_drop_lt {l : List Nat} : ∀ {n : Nat}, n < l.length →
    (l.drop n).getLast? = l.getLast? := by
  induction l with
  | nil => intro n h; exact absurd h (by simp)
  | cons b t ih =>
    intro n h
    cases n with
    | zero => rfl
    | succ m =>
      have hm : m < t.length := Nat.lt_of_succ_lt_succ h
      have ht : t.drop m = (b :: t).drop (m + 1) := rfl
      rw [← ht, ih hm]
      cases t with
      | nil => exact absurd hm (by simp)
      | cons c t' => rw [List.getLast?_cons_cons]

theorem splitChunk_full (u v : List Nat) (h10 : 10 ∉ u) :
    splitChunk u.length (u ++ v) = (u, v) := by
  induction u with
  | nil => rfl
  | cons b t ih =>
    have hb : ¬ b = 10 := fun hb => h10 (hb ▸ List.mem_cons_self b t)
    have ht : 10 ∉ t := fun hm => h10 (List.mem_cons_of_mem b hm)
    rw [List.cons_append, List.length_cons, splitChunk_cons, if_neg hb, ih ht]

theorem splitChunk_line (cap : Nat) (seg rest : List Nat) (h10 : 10 ∉ seg)
    (hlen : seg.length < cap) :
    splitChunk cap (seg ++ 10 :: rest) = (seg ++ [10], rest) := by
  induction seg generalizing cap with
  | nil =>
    cases cap with
    | zero => exact absurd hlen (by simp)
    | succ n => simp [splitChunk_cons]
  | cons b t ih =>
    have hb : ¬ b = 10 := fun hb => h10 (hb ▸ List.mem_cons_self b t)
    have ht : 10 ∉ t := fun hm => h10 (List.mem_cons_of_mem b hm)
    cases cap with
    | zero => exact absurd hlen (by simp)
    | succ n =>
      have hlt : t.length < n := Nat.lt_of_succ_lt_succ hlen
      rw [List.cons_append, splitChunk_cons, if_neg hb, ih n ht hlt]
      rw [List.cons_append]

theorem splitChunk_rest (cap : Nat) (bs : List Nat) (h10 : 10 ∉ bs)
    (hlen : bs.length ≤ cap) :
    splitChunk cap bs = (bs, []) := by
  induction bs generalizing cap with
  | nil =>
    cases cap with
    | zero => rfl
    | succ n => rfl
  | cons b t ih =>
    have hb : ¬ b = 10 := fun hb => h10 (hb ▸ List.mem_cons_self b t)
    have ht : 10 ∉ t := fun hm => h10 (List.mem_cons_of_mem b hm)
    cases cap with
    | zero => exact absurd hlen (by simp)
    | succ n =>
      have hle : t.length ≤ n := Nat.le_of_succ_le_succ hlen
      rw [splitChunk_cons, if_neg hb, ih n ht hle]

theorem stripEOL_concat_nl (seg : List Nat) : stripEOL (seg ++ [10]) = dropCR seg := by
  unfold stripEOL dropCR
  rw [if_pos (List.getLast?_concat seg), List.dropLast_concat]

theorem stripEOL_nl (line : List Nat) (h : line.getLast? ≠ some 13) :
    stripEOL (line ++ [10]) = line := by
  rw [stripEOL_concat_nl]
  unfold dropCR
  rw [if_neg h]

theorem stripEOL_crlf (line : List Nat) : stripEOL (line ++ [13, 10]) = line := by
  have h : line ++ [13, 10] = (line ++ [13]) ++ [10] := by simp
  rw [h, stripEOL_concat_nl]
  unfold dropCR
  rw [if_pos (List.getLast?_concat line), List.dropLast_concat]

theorem stripEOL_keep (c : List Nat) (h : c.getLast? ≠ some 10) : stripEOL c = c := by
  unfold stripEOL
  rw [if_neg h]

theorem dropCR_length_le (seg : List Nat) : (dropCR seg).length ≤ seg.length := by
  unfold dropCR
  split
  · rw [List.length_dropLast]
    omega
  · exact Nat.le_refl _

theorem dropCR_subset (seg : List Nat) : ∀ b ∈ dropCR seg, b ∈ seg := by
  unfold dropCR
  split
  · exact fun b hb => List.dropLast_subset seg hb
  · exact fun b hb => hb

theorem utf8Step_ascii {b : Nat} (bs : List Nat) (hb : b < 0x80) :
    utf8Step (b :: bs) = some bs := by
  show (if b < 0x80 then some bs else _) = some bs
  rw [if_pos hb]

theorem isValidUtf8F_cons (f b : Nat) (bs : List Nat) :
    isValidUtf8F (f + 1) (b :: bs) =
      match utf8Step (b :: bs) with
      | none => false
      | some rest => isValidUtf8F f rest := rfl

theorem isValidUtf8_cons_ascii {b : Nat} (bs : List Nat) (hb : b < 0x80) :
    isValidUtf8 (b :: bs) = isValidUtf8 bs := by
  show isValidUtf8F (bs.length + 1) (b :: bs) = isValidUtf8 bs
  rw [isValidUtf8F_cons, utf8Step_ascii bs hb]
  rfl

theorem isValidUtf8_ascii (bs : List Nat) (h : ∀ b ∈ bs, b < 128) :
    isValidUtf8 bs = true := by
  induction bs with
  | nil => rfl
  | cons b t ih =>
    have hb : b < 0x80 := h b (List.mem_cons_self b t)
    have ht : ∀ x ∈ t, x < 128 := fun x hx => h x (List.mem_cons_of_mem b hx)
    rw [isValidUtf8_cons_ascii t hb, ih ht]

theorem breakNL_none {bs seg : List Nat} (h : breakNL bs = (seg, none)) :
    bs = seg ∧ 10 ∉ seg := by
  induction bs generalizing seg with
  | nil =>
    injection h with h1 _
    exact ⟨h1, by rw [← h1]; simp⟩
  | cons b t ih =>
    by_cases hb : b = 10
    · rw [breakNL_cons, if_pos hb] at h
      injection h with _ h2
      cases h2
    · rw [breakNL_cons, if_neg hb] at h
      injection h with h1 h2
      obtain ⟨ht, hm⟩ := @ih (breakNL t).1 (by rw [← h2])
      constructor
      · rw [← h1]
        exact congrArg (fun l => b :: l) ht
      · rw [← h1]
        intro hmem
        rcases List.mem_cons.mp hmem with h' | h'
        · exact hb h'.symm
        · exact hm (ht ▸ h')

theorem breakNL_some {bs seg rest : List Nat} (h : breakNL bs = (seg, some rest)) :
    bs = seg ++ 10 :: rest ∧ 10 ∉ seg := by
  induction bs generalizing seg with
  | nil => injection h with _ h2; cases h2
  | cons b t ih =>
    by_cases hb : b = 10
    · rw [breakNL_cons, if_pos hb] at h
      injection h with h1 h2
      injection h2 with h2
      refine ⟨?_, by rw [← h1]; simp⟩
      rw [← h1, ← h2, hb]
      rfl
    · rw [breakNL_cons, if_neg hb] at h
      injection h with h1 h2
      obtain ⟨ht, hm⟩ := @ih (breakNL t).1 (by rw [← h2])
      constructor
      · rw [← h1, List.cons_append]
        exact congrArg (fun l => b :: l) ht
      · rw [← h1]
        intro hmem
        rcases List.mem_cons.mp hmem with h' | h'
        · exact hb h'.symm
        · exact hm h'

/-! ## Run lemmas -/

theorem nextLine_ne_nil {cap : Nat} {input : List Nat} (h : input ≠ []) :
    nextLine cap input = some (splitChunk cap input) := by
  cases input with
  | nil => exact absurd rfl h
  | cons b bs => rfl

theorem rcNext_eq (st : RcIter) {c rest : List Nat} {r : LineResult} {p : Bool}
    {buf' : List Nat}
    (h1 : nextLine st.maxSize st.remaining = some (c, rest))
    (h2 : rcProcess st.maxSize st.pending st.buffer (.bytes c) = (r, p, buf')) :
    rcNext st = some (r, ⟨rest, st.maxSize, p, buf'⟩) := by
  rw [rcNext_some h1, h2]

theorem runRc_succ {f : Nat} {st : RcIter} {r : LineResult} {st' : RcIter}
    (h : rcNext st = some (r, st')) : runRc (f + 1) st = r :: runRc f st' := by
  have hm : runRc (f + 1) st =
      match rcNext st with
      | none => []
      | some rs => rs.1 :: runRc f rs.2 := rfl
  rw [hm, h]

theorem runRc_empty (f : Nat) (st : RcIter) (h : st.remaining = []) :
    runRc f st = [] := by
  cases f with
  | zero => rfl
  | succ f =>
    unfold runRc
    rw [rcNext_none h]

theorem rcProcess_content {ms : Nat} {p : Bool} {buf c : List Nat}
    (hv : isValidUtf8 (stripEOL c) = true) :
    contentOf (rcProcess ms p buf (.bytes c)).1 = some (stripEOL c) := by
  by_cases hl : (stripEOL c).length = ms
  · rw [rcProcess_valid_fill hv hl]
    rfl
  · cases p
    · rw [rcProcess_valid_ok hv hl]
      rfl
    · rw [rcProcess_valid_cont hv hl]
      rfl

theorem contentsConcat_cons {r : LineResult} {rs : List LineResult} {s : List Nat}
    (h : contentOf r = some s) :
    contentsConcat (r :: rs) = s ++ contentsConcat rs := by
  unfold contentsConcat
  rw [List.filterMap_cons_some h, List.flatten_cons]

theorem contentsConcat_cons_incomplete (s : List Nat) (rs : List LineResult) :
    contentsConcat (.incomplete s :: rs) = s ++ contentsConcat rs :=
  contentsConcat_cons rfl

theorem okContents_cons_ok (s : List Nat) (rs : List LineResult) :
    okContents (.ok s :: rs) = s :: okContents rs :=
  List.filterMap_cons_some rfl

theorem splitLinesF_cons (f b : Nat) (bs : List Nat) :
    splitLinesF (f + 1) (b :: bs) =
      match breakNL (b :: bs) with
      | (seg, none) => [seg]
      | (seg, some rest) => dropCR seg :: splitLinesF f rest := rfl

theorem linesFitF_cons (f cap b : Nat) (bs : List Nat) :
    linesFitF (f + 1) cap (b :: bs) =
      match breakNL (b :: bs) with
      | (seg, none) => decide (seg.length < cap)
      | (seg, some rest) => decide (seg.length + 1 ≤ cap) && linesFitF f cap rest :=
  rfl

/-- Master induction for C4: with `pending` clear, a stream all of whose
lines fit in one window is consumed line by line, each line yielding
exactly one `Ok` with the stripped content of the standard splitter. -/
theorem okContents_eq_splitLinesF :
    ∀ (fuel cap : Nat) (input buf : List Nat), 0 < cap → input.length < fuel →
      (∀ b ∈ input, b < 128) → linesFitF fuel cap input = true →
      okContents (runRc fuel ⟨input, cap, false, buf⟩) = splitLinesF fuel input := by
  intro fuel
  induction fuel with
  | zero =>
    intro cap input buf _ hf _ _
    exact absurd hf (Nat.not_lt_zero _)
  | succ f ih =>
    intro cap input buf hcap hf hascii hfit
    cases input with
    | nil =>
      rw [runRc_empty (f + 1) ⟨[], cap, false, buf⟩ rfl]
      rfl
    | cons b bs =>
      rcases hbrk : breakNL (b :: bs) with ⟨seg, o⟩
      cases o with
      | none =>
        obtain ⟨hseg, h10⟩ := breakNL_none hbrk
        rw [linesFitF_cons, hbrk] at hfit
        have hfit' : seg.length < cap := of_decide_eq_true hfit
        have hsc : splitChunk cap (b :: bs) = (b :: bs, []) := by
          rw [hseg]
          exact splitChunk_rest cap seg h10 (Nat.le_of_lt hfit')
        have hnl : nextLine cap (b :: bs) = some (b :: bs, []) := by
          rw [nextLine_ne_nil (by simp), hsc]
        have hstrip : stripEOL (b :: bs) = b :: bs := by
          rw [hseg]
          exact stripEOL_keep seg (getLast?_not_mem h10)
        have hv : isValidUtf8 (stripEOL (b :: bs)) = true := by
          rw [hstrip]
          exact isValidUtf8_ascii _ hascii
        have hlen : (stripEOL (b :: bs)).length ≠ cap := by
          rw [hstrip, hseg]
          omega
        have hproc := @rcProcess_valid_ok cap buf (b :: bs) hv hlen
        have hnext := rcNext_eq ⟨b :: bs, cap, false, buf⟩ hnl hproc
        rw [runRc_succ hnext, hstrip, okContents_cons_ok,
          runRc_empty f ⟨[], cap, false, b :: bs⟩ rfl, splitLinesF_cons, hbrk, hseg]
        rfl
      | some rest =>
        obtain ⟨hseg, h10⟩ := breakNL_some hbrk
        rw [linesFitF_cons, hbrk] at hfit
        rw [Bool.and_eq_true] at hfit
        obtain ⟨hfit1, hfit2⟩ := hfit
        have hfit1 : seg.length + 1 ≤ cap := of_decide_eq_true hfit1
        have hsc : splitChunk cap (b :: bs) = (seg ++ [10], rest) := by
          rw [hseg]
          exact splitChunk_line cap seg rest h10 hfit1
        have hnl : nextLine cap (b :: bs) = some (seg ++ [10], rest) := by
          rw [nextLine_ne_nil (by simp), hsc]
        have hmem : ∀ x ∈ seg, x ∈ b :: bs := by
          intro x hx
          rw [hseg]
          exact List.mem_append.mpr (Or.inl hx)
        have hstrip : stripEOL (seg ++ [10]) = dropCR seg := stripEOL_concat_nl seg
        have hv : isValidUtf8 (stripEOL (seg ++ [10])) = true := by
          rw [hstrip]
          exact isValidUtf8_ascii _
            (fun x hx => hascii x (hmem x (dropCR_subset seg x hx)))
        have hlen : (stripEOL (seg ++ [10])).length ≠ cap := by
          rw [hstrip]
          have := dropCR_length_le seg
          omega
        have hproc := @rcProcess_valid_ok cap buf (seg ++ [10]) hv hlen
        have hnext := rcNext_eq ⟨b :: bs, cap, false, buf⟩ hnl hproc
        have hrest_ascii : ∀ x ∈ rest, x < 128 := by
          intro x hx
          apply hascii
          rw [hseg]
          exact List.mem_append.mpr (Or.inr (List.mem_cons_of_mem 10 hx))
        have hrest_len : rest.length < f := by
          have h1 : (b :: bs).length < f + 1 := hf
          have h2 : (b :: bs).length = seg.length + 1 + rest.length := by
            rw [hseg]
            simp [List.length_append]
            omega
          omega
        rw [runRc_succ hnext, hstrip, okContents_cons_ok,
          ih cap rest (dropCR seg) hcap hrest_len hrest_ascii hfit2,
          splitLinesF_cons, hbrk]

/-- Master induction for C3: processing one logical line `line` (no `\n`
inside, ASCII) terminated by `\n` or by a `\r\n` that is not split across
a window boundary, from the start of a window and with any flag/buffer
state, the emitted contents concatenate to exactly `line`. -/
theorem contentsConcat_line :
    ∀ (fuel cap : Nat) (line term : List Nat) (p : Bool) (buf : List Nat),
      0 < cap → (line ++ term).length < fuel →
      (∀ b ∈ line, b < 128) → 10 ∉ line →
      ((term = [10] ∧ line.getLast? ≠ some 13) ∨
        (term = [13, 10] ∧ ¬ cap ∣ (line.length + 1))) →
      contentsConcat (runRc fuel ⟨line ++ term, cap, p, buf⟩) = line := by
  intro fuel
  induction fuel with
  | zero =>
    intro cap line term p buf _ hf _ _ _
    exact absurd hf (Nat.not_lt_zero _)
  | succ f ih =>
    intro cap line term p buf hcap hf hascii h10 hterm
    by_cases hfit : line.length + term.length ≤ cap
    · -- the whole line and its terminator fit in one window
      have hlinelt : line.length < cap := by
        rcases hterm with ⟨ht, _⟩ | ⟨ht, _⟩ <;> subst ht <;> simp at hfit <;> omega
      obtain ⟨hsc, hstrip⟩ : splitChunk cap (line ++ term) = (line ++ term, []) ∧
          stripEOL (line ++ term) = line := by
        rcases hterm with ⟨ht, hcr⟩ | ⟨ht, _⟩ <;> subst ht
        · exact ⟨splitChunk_line cap line [] h10 hlinelt, stripEOL_nl line hcr⟩
        · constructor
          · have h13 : 10 ∉ line ++ [13] := by
              intro hm
              rcases List.mem_append.mp hm with h' | h'
              · exact h10 h'
              · simp at h'
            have hlt13 : (line ++ [13]).length < cap := by
              simp at hfit ⊢
              omega
            have hx := splitChunk_line cap (line ++ [13]) [] h13 hlt13
            have ha : line ++ [13, 10] = (line ++ [13]) ++ 10 :: [] := by simp
            rw [ha, hx]
          · exact stripEOL_crlf line
      have hne : line ++ term ≠ [] := by
        rcases hterm with ⟨ht, _⟩ | ⟨ht, _⟩ <;> subst ht <;> simp
      have hnl : nextLine cap (line ++ term) = some (line ++ term, []) := by
        rw [nextLine_ne_nil hne, hsc]
      have hv : isValidUtf8 (stripEOL (line ++ term)) = true := by
        rw [hstrip]
        exact isValidUtf8_ascii line hascii
      have hlen : (stripEOL (line ++ term)).length ≠ cap := by
        rw [hstrip]
        omega
      have hcont := @rcProcess_content cap p buf (line ++ term) hv
      have hnext := @rcNext_some ⟨line ++ term, cap, p, buf⟩ (line ++ term) [] hnl
      rw [runRc_succ hnext, contentsConcat_cons hcont, hstrip,
        runRc_empty f _ rfl]
      simp [contentsConcat]
    · by_cases hline : cap ≤ line.length
      · -- the window fills with line bytes and no terminator
        have hu10 : 10 ∉ line.take cap := fun hm => h10 (List.mem_of_mem_take hm)
        have hulen : (line.take cap).length = cap := by
          rw [List.length_take]
          omega
        have hsc' := splitChunk_full (line.take cap) (line.drop cap ++ term) hu10
        rw [hulen] at hsc'
        have hdecomp : line ++ term = line.take cap ++ (line.drop cap ++ term) := by
          rw [← List.append_assoc, List.take_append_drop]
        have hsc : splitChunk cap (line ++ term) =
            (line.take cap, line.drop cap ++ term) := by
          rw [hdecomp]
          exact hsc'
        have hne : line ++ term ≠ [] := by
          intro he
          rcases List.append_eq_nil.mp he with ⟨h1, _⟩
          rw [h1] at hline
          simp at hline
          omega
        have hnl : nextLine cap (line ++ term) =
            some (line.take cap, line.drop cap ++ term) := by
          rw [nextLine_ne_nil hne, hsc]
        have hstrip : stripEOL (line.take cap) = line.take cap :=
          stripEOL_keep _ (getLast?_not_mem hu10)
        have hv : isValidUtf8 (stripEOL (line.take cap)) = true := by
          rw [hstrip]
          exact isValidUtf8_ascii _ (fun x hx => hascii x (List.mem_of_mem_take hx))
        have hlenEq : (stripEOL (line.take cap)).length = cap := by
          rw [hstrip, hulen]
        have hproc := @rcProcess_valid_fill cap p buf (line.take cap) hv hlenEq
        have hnext := rcNext_eq ⟨line ++ term, cap, p, buf⟩ hnl hproc
        have hf' : (line.drop cap ++ term).length < f := by
          have h1 : (line ++ term).length = line.length + term.length :=
            List.length_append line term
          have h2 : (line.drop cap ++ term).length =
              line.length - cap + term.length := by
            rw [List.length_append, List.length_drop]
          omega
        have hascii' : ∀ x ∈ line.drop cap, x < 128 :=
          fun x hx => hascii x (List.mem_of_mem_drop hx)
        have h10' : 10 ∉ line.drop cap := fun hm => h10 (List.mem_of_mem_drop hm)
        have hterm' : ((term = [10] ∧ (line.drop cap).getLast? ≠ some 13) ∨
            (term = [13, 10] ∧ ¬ cap ∣ ((line.drop cap).length + 1))) := by
          rcases hterm with ⟨ht, hcr⟩ | ⟨ht, hdvd⟩
          · refine Or.inl ⟨ht, ?_⟩
            by_cases hv2 : cap < line.length
            · rw [getLast?_drop_lt hv2]
              exact hcr
            · have hd : line.drop cap = [] := List.drop_eq_nil_of_le (by omega)
              rw [hd]
              simp
          · refine Or.inr ⟨ht, ?_⟩
            intro hd
            apply hdvd
            have hlen3 : (line.drop cap).length = line.length - cap :=
              List.length_drop cap line
            have he : line.length + 1 = (line.length - cap + 1) + cap := by omega
            rw [he]
            exact Nat.dvd_add (hlen3 ▸ hd) (Nat.dvd_refl cap)
        rw [runRc_succ hnext, hstrip, contentsConcat_cons_incomplete,
          ih cap (line.drop cap) term true (line.take cap) hcap hf' hascii' h10' hterm',
          List.take_append_drop]
      · -- impossible: the line alone is shorter than the window but the
        -- terminated line does not fit, so a crlf straddles the boundary
        exfalso
        rcases hterm with ⟨ht, _⟩ | ⟨ht, hdvd⟩
        · subst ht
          simp at hfit
          omega
        · subst ht
          have hcapeq : cap = line.length + 1 := by
            simp at hfit
            omega
          exact hdvd (by rw [← hcapeq])

/-! ## Claim theorems -/

/-- C1: whenever `pending_incomplete` is true on entry to `next()`, or the
chunk filled the capacity window without a terminator (its stripped
content is exactly `max_size` bytes), the yielded item is never a
complete (`Ok`) line — every fragment of a truncated logical line,
including its final naturally-terminated tail, is tainted. -/
theorem C1_truncated_line_never_ok (st : RcIter) (c rest : List Nat)
    (r : LineResult) (st' : RcIter)
    (hchunk : nextLine st.maxSize st.remaining = some (c, rest))
    (hnext : rcNext st = some (r, st'))
    (hcond : st.pending = true ∨ (stripEOL c).length = st.maxSize) :
    isOk r = false := by
  rw [rcNext_some hchunk] at hnext
  have hr : (rcProcess st.maxSize st.pending st.buffer (.bytes c)).1 = r :=
    congrArg Prod.fst (Option.some.inj hnext)
  rw [← hr]
  cases h2 : isOk ((rcProcess st.maxSize st.pending st.buffer (.bytes c)).1) with
  | false => rfl
  | true =>
    rw [rcProcess_ok_iff] at h2
    obtain ⟨_, hl2, hp2⟩ := h2
    rcases hcond with hp | hl
    · rw [hp] at hp2
      exact absurd hp2 (by decide)
    · exact absurd hl hl2

/-- Witness for C1: the first chunk of `"1"` with capacity 1 fills the
window, and indeed is not yielded as `Ok`. -/
theorem C1_witness : isOk (.incomplete [49]) = false :=
  C1_truncated_line_never_ok ⟨[49], 1, false, []⟩ [49] [] (.incomplete [49])
    ⟨[], 1, true, [49]⟩ rfl rfl (Or.inr (by decide))

/-- C2: with capacity 5 and input `"12345678\r\n123"`, the iterator
yields exactly `Incomplete "12345"`, `Incomplete "678"`, `Ok "123"`, and
after those three calls `next()` yields end-of-sequence. -/
theorem C2_doc_example :
    runAll 5 [49, 50, 51, 52, 53, 54, 55, 56, 13, 10, 49, 50, 51] =
        [.incomplete [49, 50, 51, 52, 53], .incomplete [54, 55, 56],
          .ok [49, 50, 51]] ∧
      rcNext (stateAfter 3
        (initIter 5 [49, 50, 51, 52, 53, 54, 55, 56, 13, 10, 49, 50, 51])) = none := by
  decide

/-- C3 counterexample: with capacity 5 and input `"1234\r\n"` the `\r\n`
terminator is split across the window boundary; the emitted contents
concatenate to `"1234\r"`, so re-appending the original terminator gives
`"1234\r\r\n"`, not the original bytes `"1234\r\n"`. -/
theorem C3_counterexample :
    contentsConcat (runAll 5 [49, 50, 51, 52, 13, 10]) ++ [13, 10] =
        [49, 50, 51, 52, 13, 13, 10] ∧
      contentsConcat (runAll 5 [49, 50, 51, 52, 13, 10]) ++ [13, 10] ≠
        [49, 50, 51, 52, 13, 10] := by
  decide

/-- C4 counterexample: with capacity 5 and input `"12345\n"` no line
exceeds 5 bytes (the single logical line is exactly 5 bytes), yet the run
yields no `Ok` line at all while the standard splitter yields
`["12345"]`. -/
theorem C4_counterexample :
    (∀ seg ∈ splitLines [49, 50, 51, 52, 53, 10], seg.length ≤ 5) ∧
      splitLines [49, 50, 51, 52, 53, 10] = [[49, 50, 51, 52, 53]] ∧
      okContents (runAll 5 [49, 50, 51, 52, 53, 10]) = [] := by
  decide

/-- C5 counterexample: with capacity 5 and input `"1234\n"` the raw,
untrimmed chunk is exactly 5 bytes (= capacity), yet the splitter does
not take the set-pending-and-emit-Incomplete branch: it yields `Ok` and
leaves `pending_incomplete` false, because the comparison is made against
the terminator-stripped length. -/
theorem C5_counterexample :
    nextLine 5 [49, 50, 51, 52, 10] = some ([49, 50, 51, 52, 10], []) ∧
      ([49, 50, 51, 52, 10] : List Nat).length = 5 ∧
      runAll 5 [49, 50, 51, 52, 10] = [.ok [49, 50, 51, 52]] ∧
      (stateAfter 1 (initIter 5 [49, 50, 51, 52, 10])).pending = false := by
  decide

/-- C5 (amended): on a call that receives a chunk, the splitter takes the
set-pending-and-emit-Incomplete branch exactly when the
terminator-stripped content is valid text and its length equals the
capacity — stripping happens before the length comparison, so a
capacity-sized raw chunk that ends in a terminator does not take it. -/
theorem C5_full_branch_iff (st : RcIter) (c rest : List Nat) (r : LineResult)
    (st' : RcIter)
    (hchunk : nextLine st.maxSize st.remaining = some (c, rest))
    (hnext : rcNext st = some (r, st')) :
    (isIncomplete r = true ∧ st'.pending = true) ↔
      isValidUtf8 (stripEOL c) = true ∧ (stripEOL c).length = st.maxSize := by
  rw [rcNext_some hchunk] at hnext
  have h := Option.some.inj hnext
  have hr : (rcProcess st.maxSize st.pending st.buffer (.bytes c)).1 = r :=
    congrArg Prod.fst h
  have hp : (rcProcess st.maxSize st.pending st.buffer (.bytes c)).2.1 = st'.pending :=
    congrArg (fun q => (Prod.snd q).pending) h
  rw [← hr, ← hp]
  exact rcProcess_fill_iff

/-- Witness for C5 (amended): capacity 5 on `"12345"`: the stripped chunk
is 5 bytes, and the branch is taken. -/
theorem C5_witness :
    (isIncomplete (.incomplete [49, 50, 51, 52, 53]) = true ∧
        (⟨[], 5, true, [49, 50, 51, 52, 53]⟩ : RcIter).pending = true) ↔
      isValidUtf8 (stripEOL [49, 50, 51, 52, 53]) = true ∧
        (stripEOL [49, 50, 51, 52, 53]).length =
          (initIter 5 [49, 50, 51, 52, 53]).maxSize :=
  C5_full_branch_iff (initIter 5 [49, 50, 51, 52, 53]) [49, 50, 51, 52, 53] []
    (.incomplete [49, 50, 51, 52, 53]) ⟨[], 5, true, [49, 50, 51, 52, 53]⟩ rfl rfl

/-- C6: whenever the stripped bytes of the received chunk are not valid
UTF-8, `next()` yields the `Encoding` failure (never `Ok` or
`Incomplete`); in particular for input `"ab\xFE"` with capacity 10 the
single yielded item is the `Encoding` failure. -/
theorem C6_invalid_utf8_yields_encoding :
    (∀ (st : RcIter) (c rest : List Nat) (r : LineResult) (st' : RcIter),
        nextLine st.maxSize st.remaining = some (c, rest) →
        rcNext st = some (r, st') →
        isValidUtf8 (stripEOL c) = false → r = .encoding) ∧
      runAll 10 [97, 98, 254] = [.encoding] := by
  constructor
  · intro st c rest r st' hchunk hnext hbad
    rw [rcNext_some hchunk] at hnext
    have hr : (rcProcess st.maxSize st.pending st.buffer (.bytes c)).1 = r :=
      congrArg Prod.fst (Option.some.inj hnext)
    rw [← hr, rcProcess_invalid hbad]
  · decide

/-- Witness for C6: the line `"d\xC8"` (terminated by `\n`) is invalid
UTF-8 and yields the `Encoding` failure. -/
theorem C6_witness : LineResult.encoding = LineResult.encoding :=
  C6_invalid_utf8_yields_encoding.1 (initIter 5 [100, 200, 10]) [100, 200, 10] []
    .encoding ⟨[], 5, false, []⟩ rfl rfl (by decide)

/-- C7: `next()` never writes into an allocation for which the caller
still holds a live handle: every live allocation's content is unchanged
by the call, and when the caller still holds the splitter's own buffer
allocation, the splitter rebinds to a freshly allocated slot instead. -/
theorem C7_no_live_alias_write (live : List Nat) (st : HeapState)
    (r : LineResult) (st' : HeapState)
    (hlive : ∀ j ∈ live, j < st.heap.length)
    (hnext : rcHeapNext live st = some (r, st')) :
    (∀ i ∈ live, st'.heap[i]? = st.heap[i]?) ∧
      (st.bufId ∈ live → st'.bufId = st.heap.length) := by
  unfold rcHeapNext at hnext
  cases hnl : nextLine st.maxSize st.remaining with
  | none => rw [hnl] at hnext; cases hnext
  | some cr =>
    rw [hnl] at hnext
    injection hnext with h
    have hheap :
        (if isValidUtf8 (stripEOL cr.1) then
            (heapCleared live st.heap st.bufId).set
              (heapTarget live st.heap st.bufId) (stripEOL cr.1)
          else heapCleared live st.heap st.bufId) = st'.heap :=
      congrArg (fun q => (Prod.snd q).heap) h
    have hbuf : heapTarget live st.heap st.bufId = st'.bufId :=
      congrArg (fun q => (Prod.snd q).bufId) h
    constructor
    · intro i hi
      rw [← hheap]
      by_cases hv : isValidUtf8 (stripEOL cr.1)
      · rw [if_pos hv]
        exact heapWrite_frame live st.heap st.bufId (stripEOL cr.1) i hi hlive
      · rw [if_neg hv]
        exact heapCleared_frame live st.heap st.bufId i hi hlive
    · intro hb
      rw [← hbuf]
      unfold heapTarget
      rw [if_pos hb]

/-- Witness for C7: one prior allocation `"x"` still held by the caller;
reading `"a"` writes a fresh slot and leaves slot 0 intact. -/
theorem C7_witness :
    ([[120], [97]] : List (List Nat))[0]? = ([[120]] : List (List Nat))[0]? :=
  (C7_no_live_alias_write [0] ⟨[97], 5, false, [[120]], 0⟩ (.ok [97])
      ⟨[], 5, false, [[120], [97]], 1⟩ (by decide) rfl).1 0 (by decide)

/-- C8: once `next()` yields end-of-sequence the iterator state is never
advanced again, so every subsequent call again yields end-of-sequence and
no data is ever re-emitted. -/
theorem C8_exhaustion_idempotent (st : RcIter) (h : rcNext st = none) :
    ∀ n : Nat, rcNext (stateAfter n st) = none := by
  have hstep : stepState st = st := by
    unfold stepState
    rw [h]
  have hfix : ∀ n, stateAfter n st = st := by
    intro n
    induction n with
    | zero => rfl
    | succ n ih =>
      show stateAfter n (stepState st) = st
      rw [hstep]
      exact ih
  intro n
  rw [hfix n]
  exact h

/-- Witness for C8: an exhausted iterator (empty input) still yields
end-of-sequence after four further calls. -/
theorem C8_witness : rcNext (stateAfter 4 (initIter 3 [])) = none :=
  C8_exhaustion_idempotent (initIter 3 []) rfl 4

/-- C9: error results leave `pending_incomplete` exactly as it was on
entry: an I/O failure propagates before any state is touched (flag and
buffer both unchanged), and an invalid-UTF-8 chunk — capacity-filling or
not, pending or not — yields `Encoding` with the flag unchanged (the
buffer having only been cleared for the aborted write). -/
theorem C9_error_preserves_pending (ms : Nat) (p : Bool) (buf c : List Nat)
    (hbad : isValidUtf8 (stripEOL c) = false) :
    rcProcess ms p buf .ioErr = (.ioError, p, buf) ∧
      rcProcess ms p buf (.bytes c) = (.encoding, p, []) :=
  ⟨rfl, rcProcess_invalid hbad⟩

/-- Witness for C9: flag `true`, buffer `"x"`, invalid chunk `"\xFE"` of
exactly capacity 1: the flag survives both error kinds. -/
theorem C9_witness :
    rcProcess 1 true [120] .ioErr = (.ioError, true, [120]) ∧
      rcProcess 1 true [120] (.bytes [254]) = (.encoding, true, []) :=
  C9_error_preserves_pending 1 true [120] [254] (by decide)

/-- C10: stripping keeps a trailing `\r` that is not preceded by the
dropped `\n` (so a `\r` cut off at the window boundary stays in the
earlier fragment), and with capacity 5 on `"1234\r\n"` the run is exactly
`Incomplete "1234\r"` followed by `Incomplete ""`. -/
theorem C10_split_crlf_boundary :
    (∀ c : List Nat, c.getLast? ≠ some 10 → stripEOL c = c) ∧
      runAll 5 [49, 50, 51, 52, 13, 10] =
        [.incomplete [49, 50, 51, 52, 13], .incomplete []] := by
  constructor
  · intro c hc
    unfold stripEOL
    rw [if_neg hc]
  · decide

/-- Witness for C10: a lone `"\r"` chunk is left untouched by
stripping. -/
theorem C10_witness : stripEOL [13] = [13] :=
  C10_split_crlf_boundary.1 [13] (by decide)

/-- C3 (amended): for an ASCII logical line, terminated by `\n` (with no
stray `\r` as the line's own last byte) or by a `\r\n` whose `\r` is not
cut off at a window boundary (the capacity does not divide the line
length + 1), concatenating the contents of all emitted fragments in
emission order and re-appending the original terminator reconstructs the
line's original bytes exactly; when the `\r\n` is split, the
concatenation keeps the `\r` and the reconstruction duplicates it. -/
theorem C3_reconstruction (cap : Nat) (line term : List Nat) (hcap : 0 < cap)
    (hascii : ∀ b ∈ line, b < 128) (h10 : 10 ∉ line)
    (hterm : (term = [10] ∧ line.getLast? ≠ some 13) ∨
      (term = [13, 10] ∧ ¬ cap ∣ (line.length + 1))) :
    contentsConcat (runAll cap (line ++ term)) ++ term = line ++ term := by
  have h := contentsConcat_line ((line ++ term).length + 1) cap line term false []
    hcap (Nat.lt_succ_self _) hascii h10 hterm
  show contentsConcat (runRc ((line ++ term).length + 1)
      ⟨line ++ term, cap, false, []⟩) ++ term = line ++ term
  rw [h]

/-- Witness for C3 (amended): capacity 5 on `"abc\r\n"` (line split into
one window) reconstructs the original bytes. -/
theorem C3_witness :
    contentsConcat (runAll 5 [97, 98, 99, 13, 10]) ++ [13, 10] =
      [97, 98, 99] ++ [13, 10] :=
  C3_reconstruction 5 [97, 98, 99] [13, 10] (by decide) (by decide) (by decide)
    (Or.inr ⟨rfl, by decide⟩)

/-- C4 (amended): for ASCII inputs in which every `\n`-terminated line
together with its terminator fits in one window (segment length + 1 ≤
capacity) and any final unterminated line is strictly shorter than the
capacity, the sequence of `Ok` contents, terminators stripped, equals the
standard `\n`/`\r\n`-aware line split of the input, element by element
and in order. -/
theorem C4_fitting_lines_match_split (cap : Nat) (input : List Nat)
    (hcap : 0 < cap) (hascii : ∀ b ∈ input, b < 128)
    (hfit : linesFit cap input = true) :
    okContents (runAll cap input) = splitLines input :=
  okContents_eq_splitLinesF (input.length + 1) cap input [] hcap
    (Nat.lt_succ_self _) hascii hfit

/-- Witness for C4 (amended): capacity 5 on `"a\r\nb"` yields
`Ok "a"`, `Ok "b"`, matching the standard split. -/
theorem C4_witness :
    okContents (runAll 5 [97, 13, 10, 98]) = splitLines [97, 13, 10, 98] :=
  C4_fitting_lines_match_split 5 [97, 13, 10, 98] (by decide) (by decide)
    (by decide)

end SimpleLines
